import Mathlib

/-!
Shallow embedding of the Mandelbrot renderer in `source/main.cpp`
(repository redien/mandelbrot).

The C++ code computes with IEEE-754 doubles; here doubles are idealized as
real numbers, `size_t` / `int` values as `ℕ` / `ℤ`.  Every definition below
mirrors a specific place in the source file, noted in its doc comment.
-/

noncomputable section

namespace Mandelbrot

open Classical

/-- RGB color with double-precision channels, from `FractalRenderer::Color`. -/
structure Color where
  r : ℝ
  g : ℝ
  b : ℝ

/-- Source `Color::operator*(double factor)`: componentwise scaling. -/
def Color.smul (c : Color) (factor : ℝ) : Color :=
  ⟨c.r * factor, c.g * factor, c.b * factor⟩

/-- Source `Color::operator+(const Color&)`: componentwise addition. -/
def Color.addc (c d : Color) : Color :=
  ⟨c.r + d.r, c.g + d.g, c.b + d.b⟩

/-- Source `FractalRenderer::Job`: a band of rows plus the viewport. -/
structure Job where
  y_start : ℕ
  y_count : ℕ
  scale : ℝ
  offset : ℝ × ℝ

/-- Source `static const int max_iterations = 1000`. -/
def max_iterations : ℕ := 1000

/-- Source `static const int max_colors = 50`. -/
def max_colors : ℕ := 50

/-- The literal `1/4` exactly as it is evaluated in the kernel source:
integer division of `int` literals, value `0`. -/
def one_div_four : ℤ := 1 / 4

/-- The literal `1/16` exactly as it is evaluated in the kernel source:
integer division of `int` literals, value `0`. -/
def one_div_sixteen : ℤ := 1 / 16

/-- Source `z.real()*z.real() + z.imag()*z.imag()`, the squared modulus as the
kernel writes it. -/
def normSq (z : ℝ × ℝ) : ℝ := z.1 * z.1 + z.2 * z.2

/-- One loop body step `z = z*z + c` with `std::complex` multiplication
`(a+bi)(a+bi) = (a*a - b*b) + (a*b + b*a)i`. -/
def zstep (z c : ℝ × ℝ) : ℝ × ℝ :=
  (z.1 * z.1 - z.2 * z.2 + c.1, z.1 * z.2 + z.2 * z.1 + c.2)

/-- The escape loop
`while (i < max_iterations && z.real()*z.real() + z.imag()*z.imag() < 2.0*2.0)`.
The loop variable `i` strictly increases each pass, so `max_iterations` fuel
always suffices; fuel-independence is proved below (claim C4). -/
def mandelLoop (c : ℝ × ℝ) : ℕ → ℝ × ℝ → ℕ → (ℝ × ℝ) × ℕ
  | 0, z, i => (z, i)
  | fuel + 1, z, i =>
      if i < max_iterations ∧ normSq z < 2 * 2 then
        mandelLoop c fuel (zstep z c) (i + 1)
      else (z, i)

/-- Source `double q = (z.real() - 1/4)*(z.real() - 1/4) + z.imag()*z.imag()`. -/
def cardioid_q (z : ℝ × ℝ) : ℝ :=
  (z.1 - (one_div_four : ℝ)) * (z.1 - (one_div_four : ℝ)) + z.2 * z.2

/-- Source `bool inside_cardioid = q * (q + (z.real() - 1/4)) < (1/4)*z.imag()*z.imag()`. -/
def inside_cardioid (z : ℝ × ℝ) : Prop :=
  cardioid_q z * (cardioid_q z + (z.1 - (one_div_four : ℝ))) <
    (one_div_four : ℝ) * z.2 * z.2

/-- Source `bool inside_period2_bulb = (z.real() + 1)*(z.real() + 1) + z.imag()*z.imag() < 1/16`. -/
def inside_period2_bulb (z : ℝ × ℝ) : Prop :=
  (z.1 + 1) * (z.1 + 1) + z.2 * z.2 < (one_div_sixteen : ℝ)

/-- Input of one pixel-kernel evaluation: the pixel coordinate, the raster
dimensions (stored as doubles `texture_width`, `texture_height` in the
source) and the current job viewport. -/
structure PixelIn where
  x : ℕ
  y : ℕ
  texture_width : ℝ
  texture_height : ℝ
  scale : ℝ
  offset : ℝ × ℝ

/-- The complex parameter of a pixel:
`c = (((double)_x / texture_width) * 2.0 - 1.0, ((double)_y / texture_height) * 2.0 - 1.0)`
followed by `c *= current_job.scale; c += current_job.offset;`. -/
def pixelC (p : PixelIn) : ℝ × ℝ :=
  ((((p.x : ℝ) / p.texture_width) * 2 - 1) * p.scale + p.offset.1,
   (((p.y : ℝ) / p.texture_height) * 2 - 1) * p.scale + p.offset.2)

/-- The kernel of `FractalRenderer::operator()` for one pixel: the early-out
tests (computed from `z = (0,0)`, as in the source) followed by either the
escape loop or the assignment `i = max_iterations`.  Returns the final `z`
and `i`. -/
def kernelZI (p : PixelIn) : (ℝ × ℝ) × ℕ :=
  let z : ℝ × ℝ := (0, 0)
  if ¬ inside_cardioid z ∨ ¬ inside_period2_bulb z then
    mandelLoop (pixelC p) max_iterations z 0
  else
    (z, max_iterations)

/-- Final `z` of the pixel kernel. -/
def finalZ (p : PixelIn) : ℝ × ℝ := (kernelZI p).1

/-- Final iteration count `i` of the pixel kernel. -/
def finalI (p : PixelIn) : ℕ := (kernelZI p).2

/-- The classification condition of the post-loop test
`if (z.real()*z.real() + z.imag()*z.imag() < 2.0*2.0 || i == max_iterations)`. -/
def pixelInside (p : PixelIn) : Prop :=
  normSq (finalZ p) < 2 * 2 ∨ finalI p = max_iterations

/-- Source `double s = i + (log(log((double)max_iterations)) - log(log(abs(z))))/log(2.0)`,
with `abs(z) = sqrt(normSq z)`. -/
def smoothedS (p : PixelIn) : ℝ :=
  (finalI p : ℝ) +
    (Real.log (Real.log (max_iterations : ℝ)) -
      Real.log (Real.log (Real.sqrt (normSq (finalZ p))))) / Real.log 2

/-- C++ conversion of a `double` to `int`: truncation toward zero. -/
def cppTrunc (x : ℝ) : ℤ := if x < 0 then ⌈x⌉ else ⌊x⌋

/-- C++ `%` on `int`: remainder of truncated division, whose sign follows
the dividend. -/
def cppRem (a b : ℤ) : ℤ := a.sign * ((a.natAbs % b.natAbs : ℕ) : ℤ)

/-- Source `int first = (int)s;` for an outside pixel. -/
def firstIndex (p : PixelIn) : ℤ := cppTrunc (smoothedS p)

/-- Source `int second = first + 1;`. -/
def secondIndex (p : PixelIn) : ℤ := firstIndex p + 1

/-- Source `double factor = s - first;`. -/
def fracFactor (p : PixelIn) : ℝ := smoothedS p - (firstIndex p : ℝ)

/-- The color computed by `FractalRenderer::WritePixel`:
black when `first == -1`, otherwise
`color_ramp[second % (max_colors*2)] * factor + color_ramp[first % (max_colors*2)] * (1.0 - factor)`.
The array access is modelled through `Int.toNat`; a negative index would be
out of bounds in the C++ source. -/
def writePixelColor (ramp : ℕ → Color) (first second : ℤ) (factor : ℝ) : Color :=
  if first = -1 then ⟨0, 0, 0⟩
  else
    (Color.smul (ramp (cppRem second ((max_colors : ℤ) * 2)).toNat) factor).addc
      (Color.smul (ramp (cppRem first ((max_colors : ℤ) * 2)).toNat) (1 - factor))

/-- One stored channel byte: `(unsigned char)(v * 255.0)`. -/
def byteOf (v : ℝ) : ℤ := cppTrunc (v * 255)

/-- The three bytes written for one pixel: kernel, post-loop classification
and `WritePixel`, from `FractalRenderer::operator()`. -/
def renderPixel (ramp : ℕ → Color) (p : PixelIn) : ℤ × ℤ × ℤ :=
  let col :=
    if normSq (finalZ p) < 2 * 2 ∨ finalI p = max_iterations then
      writePixelColor ramp (-1) 0 0
    else
      writePixelColor ramp (firstIndex p) (secondIndex p) (fracFactor p)
  (byteOf col.r, byteOf col.g, byteOf col.b)

/-- Source `color_ramp[i] = Color(sqrt(sqrt(factor)), factor, inverse_factor * 0.5f)`
with `factor = (double)i / max_colors` and
`inverse_factor = (double)(max_colors - i) / max_colors`. -/
def rampBase (i : ℕ) : Color :=
  ⟨Real.sqrt (Real.sqrt ((i : ℝ) / (max_colors : ℝ))),
   (i : ℝ) / (max_colors : ℝ),
   (((max_colors - i : ℕ) : ℝ) / (max_colors : ℝ)) * 0.5⟩

/-- One pass of the palette-builder loop in `Application::run`: write
`color_ramp[i]`, then copy it to `color_ramp[max_colors*2 - 1 - i]`. -/
def rampWriteStep (acc : ℕ → Color) (i : ℕ) : ℕ → Color :=
  let acc1 := Function.update acc i (rampBase i)
  Function.update acc1 (max_colors * 2 - 1 - i) (acc1 i)

/-- The palette-builder loop `for (i = 0; i < max_colors; ++i)` run from a
given initial array contents. -/
def colorRampFrom (init : ℕ → Color) : ℕ → Color :=
  (List.range max_colors).foldl rampWriteStep init

/-- The program's color ramp `Application::color_ramp` after the builder
loop (the initial contents are irrelevant: the loop writes all 100 cells). -/
def color_ramp : ℕ → Color := colorRampFrom fun _ => ⟨0, 0, 0⟩

/-- The length of the `color_ramp` array, `FractalRenderer::max_colors*2`. -/
def ramp_length : ℕ := max_colors * 2

/-- The output raster `texture_data`, addressed by byte index. -/
abbrev Raster := ℕ → ℤ

/-- The three byte stores of `WritePixel`:
`texture_data[offset*3 + k] = (unsigned char)(color.{r,g,b} * 255.0)` with
`offset = y * (size_t)texture_width + x`. -/
def writeBytesAt (w x y : ℕ) (bs : ℤ × ℤ × ℤ) (r : Raster) : Raster :=
  Function.update
    (Function.update
      (Function.update r ((y * w + x) * 3) bs.1)
      ((y * w + x) * 3 + 1) bs.2.1)
    ((y * w + x) * 3 + 2) bs.2.2

/-- The bytes the worker computes for pixel `(x, y)` of a job, with raster
dimensions `w × h`. -/
def workerPixel (ramp : ℕ → Color) (w h : ℕ) (job : Job) (x y : ℕ) : ℤ × ℤ × ℤ :=
  renderPixel ramp ⟨x, y, (w : ℝ), (h : ℝ), job.scale, job.offset⟩

/-- The bytes of one pixel as a function of the pixel coordinate, the raster
dimensions and the viewport alone. -/
def pixelBytesAt (ramp : ℕ → Color) (w h : ℕ) (sc : ℝ) (off : ℝ × ℝ) (x y : ℕ) : ℤ × ℤ × ℤ :=
  renderPixel ramp ⟨x, y, (w : ℝ), (h : ℝ), sc, off⟩

/-- The inner column loop `for (_x = 0; _x < (size_t)texture_width; ++_x)`
of the worker, for one row `y`. -/
def renderRow (ramp : ℕ → Color) (w h : ℕ) (job : Job) (y : ℕ) (r : Raster) : Raster :=
  (List.range w).foldl (fun acc x => writeBytesAt w x y (workerPixel ramp w h job x y) acc) r

/-- The outer row loop
`for (_y = y_start; _y < y_start + y_count; ++_y)` of the worker: one Job. -/
def applyJob (ramp : ℕ → Color) (w h : ℕ) (r : Raster) (job : Job) : Raster :=
  (List.range job.y_count).foldl
    (fun acc dy => renderRow ramp w h job (job.y_start + dy) acc) r

/-- Sequential execution of a list of band jobs.  Bands of distinct workers
are disjoint, so the concurrent execution writes each raster byte exactly
once and agrees with any sequentialization. -/
def runJobs (ramp : ℕ → Color) (w h : ℕ) (r : Raster) (jobs : List Job) : Raster :=
  jobs.foldl (applyJob ramp w h) r

/-- The set of raster rows a job covers: `[y_start, y_start + y_count)`. -/
def jobRows (j : Job) : Finset ℕ := Finset.Ico j.y_start (j.y_start + j.y_count)

/-- The first published Job in `Application::run`:
`y_start = 0`, `y_count = window.getHeight() / 2`, generalized over the
window height. -/
def published_job (h : ℕ) : Job :=
  ⟨0, h / 2, 2, (0.001643721971153, 0.822467633298876)⟩

/-- The second published Job in `Application::run`:
`y_start = getHeight() / 2`, `y_count = getHeight() - y_start`. -/
def published_job2 (h : ℕ) : Job :=
  ⟨h / 2, h - h / 2, 2, (0.001643721971153, 0.822467633298876)⟩

/-- Byte selector for stating raster equalities channel by channel. -/
def byteSel (k : ℕ) (bs : ℤ × ℤ × ℤ) : ℤ :=
  if k = 0 then bs.1 else if k = 1 then bs.2.1 else bs.2.2

/-- The real orbit `z_{n+1} = z_n * z_n + c` started at `0`, used to reason
about kernel inputs on the real axis. -/
def G : ℕ → ℝ → ℝ
  | 0, _ => 0
  | n + 1, c => G n c * G n c + c

/-- A concrete pixel whose complex parameter is `(a, 0)`: pixel `(0, 0)` of
a 256×256 raster with scale 1 and offset `(a + 1, 1)`. -/
def axisPixel (a : ℝ) : PixelIn := ⟨0, 0, 256, 256, 1, (a + 1, 1)⟩

/-- A concrete pixel whose complex parameter is `(0, 0)`: pixel `(0, 0)` of
a 256×256 raster with scale 0 and offset `(0, 0)`. -/
def zeroPixel : PixelIn := ⟨0, 0, 256, 256, 0, (0, 0)⟩

/-- Color of claim C3, written from the claim's words: `first = ⌊s⌋`,
`second = first + 1`, `f = s - first`, color
`ramp[second mod 100] * f + ramp[first mod 100] * (1 - f)` with the
mathematical floor and mathematical (Euclidean) mod. -/
def claimColor (s : ℝ) : Color :=
  (Color.smul (color_ramp (((⌊s⌋ + 1) % 100).toNat)) (s - (⌊s⌋ : ℝ))).addc
    (Color.smul (color_ramp ((⌊s⌋ % 100).toNat)) (1 - (s - (⌊s⌋ : ℝ))))

/-- Byte triple of claim C3: each channel of `claimColor` multiplied by 255
and truncated. -/
def claimColorBytes (s : ℝ) : ℤ × ℤ × ℤ :=
  (⌊(claimColor s).r * 255⌋, ⌊(claimColor s).g * 255⌋, ⌊(claimColor s).b * 255⌋)

/-! ### Basic facts about the kernel -/

lemma one_div_four_eq : one_div_four = 0 := by decide

lemma one_div_sixteen_eq : one_div_sixteen = 0 := by decide

lemma max_iterations_eq : max_iterations = 1000 := rfl

lemma not_inside_cardioid_zero : ¬ inside_cardioid ((0 : ℝ), (0 : ℝ)) := by
  simp [inside_cardioid, cardioid_q, one_div_four_eq]

lemma not_inside_period2_bulb_zero : ¬ inside_period2_bulb ((0 : ℝ), (0 : ℝ)) := by
  simp [inside_period2_bulb, one_div_sixteen_eq]

lemma kernel_eq_loop (p : PixelIn) :
    kernelZI p = mandelLoop (pixelC p) max_iterations ((0 : ℝ), (0 : ℝ)) 0 := by
  unfold kernelZI
  rw [if_pos (Or.inl not_inside_cardioid_zero)]

lemma normSq_zero : normSq ((0 : ℝ), (0 : ℝ)) = 0 := by simp [normSq]

lemma zstep_zero (c : ℝ × ℝ) : zstep ((0 : ℝ), (0 : ℝ)) c = c := by
  simp [zstep]

lemma mandelLoop_i_le (c : ℝ × ℝ) :
    ∀ fuel z i, i ≤ max_iterations → (mandelLoop c fuel z i).2 ≤ max_iterations := by
  intro fuel
  induction fuel with
  | zero => intro z i h; simpa [mandelLoop] using h
  | succ n ih =>
      intro z i h
      simp only [mandelLoop]
      split_ifs with hg
      · exact ih _ _ hg.1
      · simpa using h

lemma mandelLoop_fuel_congr (c : ℝ × ℝ) :
    ∀ fuel₁ fuel₂ z i, max_iterations ≤ i + fuel₁ → max_iterations ≤ i + fuel₂ →
      mandelLoop c fuel₁ z i = mandelLoop c fuel₂ z i := by
  intro fuel₁
  induction fuel₁ with
  | zero =>
      intro fuel₂ z i h1 h2
      cases fuel₂ with
      | zero => rfl
      | succ m =>
          simp only [mandelLoop]
          rw [if_neg (by rintro ⟨hi, -⟩; omega)]
  | succ n ih =>
      intro fuel₂ z i h1 h2
      cases fuel₂ with
      | zero =>
          simp only [mandelLoop]
          rw [if_neg (by rintro ⟨hi, -⟩; omega)]
      | succ m =>
          simp only [mandelLoop]
          by_cases hg : i < max_iterations ∧ normSq z < 2 * 2
          · rw [if_pos hg, if_pos hg]
            exact ih m (zstep z c) (i + 1) (by omega) (by omega)
          · rw [if_neg hg, if_neg hg]

lemma mandelLoop_escape_one (c : ℝ × ℝ) (h4 : ¬ normSq c < 2 * 2) (fuel : ℕ) :
    mandelLoop c (fuel + 1) ((0 : ℝ), (0 : ℝ)) 0 = (c, 1) := by
  simp only [mandelLoop]
  rw [if_pos ⟨by rw [max_iterations_eq]; omega, by rw [normSq_zero]; norm_num⟩, zstep_zero]
  cases fuel with
  | zero => rfl
  | succ m =>
      simp only [mandelLoop]
      rw [if_neg (by rintro ⟨-, hz⟩; exact h4 hz)]

lemma mandelLoop_zero_orbit :
    ∀ fuel i, i + fuel = max_iterations →
      mandelLoop ((0 : ℝ), (0 : ℝ)) fuel ((0 : ℝ), (0 : ℝ)) i = (((0 : ℝ), (0 : ℝ)), max_iterations) := by
  intro fuel
  induction fuel with
  | zero =>
      intro i h
      simp only [mandelLoop]
      rw [show i = max_iterations by omega]
  | succ n ih =>
      intro i h
      simp only [mandelLoop]
      rw [if_pos ⟨by omega, by rw [normSq_zero]; norm_num⟩, zstep_zero]
      exact ih (i + 1) (by omega)

/-! ### Claim C1 -/

/-- C1: the cardioid and period-2-bulb early-out tests are computed from
`z = (0,0)` with the integer-division constants `1/4 = 0` and `1/16 = 0`,
so for every pixel both tests are false, the condition
`!inside_cardioid || !inside_period2_bulb` holds, the iteration-loop branch
is always taken, and the early-out assignment `i = max_iterations` is never
executed. -/
theorem c1_early_out_never_taken (p : PixelIn) :
    ¬ inside_cardioid ((0 : ℝ), (0 : ℝ)) ∧
    ¬ inside_period2_bulb ((0 : ℝ), (0 : ℝ)) ∧
    (¬ inside_cardioid ((0 : ℝ), (0 : ℝ)) ∨ ¬ inside_period2_bulb ((0 : ℝ), (0 : ℝ))) ∧
    kernelZI p = mandelLoop (pixelC p) max_iterations ((0 : ℝ), (0 : ℝ)) 0 :=
  ⟨not_inside_cardioid_zero, not_inside_period2_bulb_zero,
    Or.inl not_inside_cardioid_zero, kernel_eq_loop p⟩

/-! ### Claim C4 -/

/-- C4: for every pixel input the escape loop terminates — any fuel of at
least `max_iterations` steps yields the same result — and the final
iteration count is at most `max_iterations = 1000`. -/
theorem c4_loop_bounded (p : PixelIn) (extra : ℕ) :
    finalI p ≤ max_iterations ∧
    mandelLoop (pixelC p) (max_iterations + extra) ((0 : ℝ), (0 : ℝ)) 0 =
      mandelLoop (pixelC p) max_iterations ((0 : ℝ), (0 : ℝ)) 0 ∧
    max_iterations = 1000 := by
  refine ⟨?_, ?_, rfl⟩
  · unfold finalI
    rw [kernel_eq_loop]
    exact mandelLoop_i_le _ _ _ _ (Nat.zero_le _)
  · exact mandelLoop_fuel_congr _ _ _ _ _ (by omega) (by omega)

/-! ### Claim C5 -/

/-- C5: for every raster height `H` the row ranges of the two published
Jobs, `[0, H/2)` and `[H/2, H)`, are disjoint and cover `[0, H)` exactly. -/
theorem c5_bands_disjoint_cover (h : ℕ) :
    Disjoint (jobRows (published_job h)) (jobRows (published_job2 h)) ∧
    jobRows (published_job h) ∪ jobRows (published_job2 h) = Finset.range h := by
  have hh : h / 2 + (h - h / 2) = h := by omega
  constructor
  · simpa [jobRows, published_job, published_job2, hh] using
      Finset.Ico_disjoint_Ico_consecutive 0 (h / 2) h
  · rw [jobRows, jobRows]
    simp only [published_job, published_job2, Nat.zero_add, hh]
    rw [Finset.Ico_union_Ico_eq_Ico (Nat.zero_le _) (Nat.div_le_self h 2),
      Finset.range_eq_Ico]

/-! ### The color ramp -/

lemma max_colors_eq : max_colors = 50 := rfl

lemma rampWriteStep_apply (A : ℕ → Color) (m j : ℕ) :
    rampWriteStep A m j =
      Function.update (Function.update A m (rampBase m)) (max_colors * 2 - 1 - m)
        (rampBase m) j := by
  simp [rampWriteStep]

lemma colorRampFrom_apply (init : ℕ → Color) :
    ∀ n, n ≤ 50 → ∀ j,
      ((List.range n).foldl rampWriteStep init) j =
        if j < n then rampBase j
        else if 100 - n ≤ j ∧ j < 100 then rampBase (99 - j)
        else init j := by
  intro n
  induction n with
  | zero =>
      intro _ j
      rw [List.range_zero, List.foldl_nil, if_neg (by omega), if_neg (by omega)]
  | succ n ih =>
      intro hn j
      rw [List.range_succ, List.foldl_append, List.foldl_cons, List.foldl_nil,
        rampWriteStep_apply]
      have h99 : max_colors * 2 - 1 - n = 99 - n := by rw [max_colors_eq]
      rw [h99]
      by_cases hj1 : j = 99 - n
      · subst hj1
        rw [Function.update_same, if_neg (by omega), if_pos (by omega),
          show 99 - (99 - n) = n by omega]
      · rw [Function.update_noteq hj1]
        by_cases hj2 : j = n
        · subst hj2
          rw [Function.update_same, if_pos (by omega)]
        · rw [Function.update_noteq hj2, ih (by omega) j]
          split_ifs <;> first | rfl | omega

lemma color_ramp_eq (j : ℕ) :
    color_ramp j =
      if j < 50 then rampBase j
      else if j < 100 then rampBase (99 - j)
      else ⟨0, 0, 0⟩ := by
  have h := colorRampFrom_apply (fun _ => ⟨0, 0, 0⟩) 50 le_rfl j
  unfold color_ramp colorRampFrom
  rw [max_colors_eq, h]
  by_cases h1 : j < 50
  · rw [if_pos h1, if_pos h1]
  · rw [if_neg h1, if_neg h1]
    by_cases h2 : j < 100
    · rw [if_pos (by omega), if_pos h2]
    · rw [if_neg (by omega), if_neg h2]

lemma rampBase_bounds (i : ℕ) (hi : i ≤ 50) :
    0 ≤ (rampBase i).r ∧ (rampBase i).r ≤ 1 ∧
    0 ≤ (rampBase i).g ∧ (rampBase i).g ≤ 1 ∧
    0 ≤ (rampBase i).b ∧ (rampBase i).b ≤ 1 := by
  have hcast : ((i : ℝ)) ≤ 50 := by exact_mod_cast hi
  have h0 : (0 : ℝ) ≤ (i : ℝ) / (max_colors : ℝ) := by
    rw [max_colors_eq]
    positivity
  have h1 : (i : ℝ) / (max_colors : ℝ) ≤ 1 := by
    rw [max_colors_eq]
    rw [div_le_one (by norm_num)]
    exact_mod_cast hcast
  refine ⟨Real.sqrt_nonneg _, ?_, h0, h1, ?_, ?_⟩
  · exact Real.sqrt_le_one.mpr (Real.sqrt_le_one.mpr h1)
  · show (0 : ℝ) ≤ _ * 0.5
    rw [max_colors_eq]
    positivity
  · show ((max_colors - i : ℕ) : ℝ) / (max_colors : ℝ) * 0.5 ≤ 1
    rw [max_colors_eq]
    have hle : ((50 - i : ℕ) : ℝ) ≤ 50 := by
      have : (50 - i : ℕ) ≤ 50 := by omega
      exact_mod_cast this
    have : ((50 - i : ℕ) : ℝ) / 50 ≤ 1 := by
      rw [div_le_one (by norm_num)]
      exact hle
    have hnn : (0 : ℝ) ≤ ((50 - i : ℕ) : ℝ) := Nat.cast_nonneg _
    nlinarith [this, hnn]

lemma color_ramp_bounds (j : ℕ) :
    0 ≤ (color_ramp j).r ∧ (color_ramp j).r ≤ 1 ∧
    0 ≤ (color_ramp j).g ∧ (color_ramp j).g ≤ 1 ∧
    0 ≤ (color_ramp j).b ∧ (color_ramp j).b ≤ 1 := by
  rw [color_ramp_eq]
  by_cases h1 : j < 50
  · rw [if_pos h1]
    exact rampBase_bounds j (by omega)
  · rw [if_neg h1]
    by_cases h2 : j < 100
    · rw [if_pos h2]
      exact rampBase_bounds (99 - j) (by omega)
    · rw [if_neg h2]
      norm_num

/-! ### Claim C7 -/

/-- C7: the palette builder yields a 100-entry ramp with
`ramp[i] = (sqrt(sqrt(i/50)), i/50, ((50-i)/50)*0.5)` and
`ramp[99-i] = ramp[i]` for `i < 50`, entries outside `[0,100)` untouched,
and every channel of every entry in `[0, 1]`. -/
theorem c7_palette_shape (i : ℕ) (hi : i < max_colors) :
    color_ramp i =
      ⟨Real.sqrt (Real.sqrt ((i : ℝ) / 50)), (i : ℝ) / 50, (((50 : ℝ) - i) / 50) * 0.5⟩ ∧
    color_ramp (99 - i) = color_ramp i ∧
    ramp_length = 100 ∧
    (∀ init : ℕ → Color, ∀ j, 100 ≤ j → colorRampFrom init j = init j) ∧
    (∀ j, j < 100 →
      0 ≤ (color_ramp j).r ∧ (color_ramp j).r ≤ 1 ∧
      0 ≤ (color_ramp j).g ∧ (color_ramp j).g ≤ 1 ∧
      0 ≤ (color_ramp j).b ∧ (color_ramp j).b ≤ 1) := by
  rw [max_colors_eq] at hi
  refine ⟨?_, ?_, rfl, ?_, fun j _ => color_ramp_bounds j⟩
  · rw [color_ramp_eq, if_pos hi]
    unfold rampBase
    rw [max_colors_eq]
    have : ((50 - i : ℕ) : ℝ) = (50 : ℝ) - i := by
      rw [Nat.cast_sub (by omega)]
      norm_num
    rw [this]
    norm_num
  · rw [color_ramp_eq, color_ramp_eq, if_pos hi, if_neg (by omega), if_pos (by omega),
      show 99 - (99 - i) = i by omega]
  · intro init j hj
    unfold colorRampFrom
    rw [max_colors_eq, colorRampFrom_apply init 50 le_rfl j,
      if_neg (by omega), if_neg (by omega)]

/-- Witness for C7 at the concrete index `i = 7`. -/
theorem c7_palette_shape_witness :
    7 < max_colors ∧
    (color_ramp 7 =
        ⟨Real.sqrt (Real.sqrt ((7 : ℕ) / 50 : ℝ)), ((7 : ℕ) : ℝ) / 50,
          (((50 : ℝ) - (7 : ℕ)) / 50) * 0.5⟩ ∧
      color_ramp (99 - 7) = color_ramp 7 ∧
      ramp_length = 100 ∧
      (∀ init : ℕ → Color, ∀ j, 100 ≤ j → colorRampFrom init j = init j) ∧
      (∀ j, j < 100 →
        0 ≤ (color_ramp j).r ∧ (color_ramp j).r ≤ 1 ∧
        0 ≤ (color_ramp j).g ∧ (color_ramp j).g ≤ 1 ∧
        0 ≤ (color_ramp j).b ∧ (color_ramp j).b ≤ 1)) :=
  ⟨by rw [max_colors_eq]; omega, c7_palette_shape 7 (by rw [max_colors_eq]; omega)⟩

/-! ### Claim C8 -/

/-- C8: the ramp satisfies `ramp[0] = ramp[2K-1]` (entry 0 equals entry 99)
and `ramp[K-1] = ramp[K]` (entry 49 equals entry 50), so the linear
interpolation taken mod 100 has no discontinuity at the wrap boundary. -/
theorem c8_ramp_wrap_seamless :
    color_ramp 0 = color_ramp (2 * max_colors - 1) ∧
    color_ramp (max_colors - 1) = color_ramp max_colors := by
  rw [max_colors_eq]
  constructor
  · rw [color_ramp_eq, color_ramp_eq]
    norm_num
  · rw [color_ramp_eq, color_ramp_eq]
    norm_num

/-! ### Truncation, remainder and concrete probe pixels -/

lemma cppTrunc_of_nonneg (x : ℝ) (hx : 0 ≤ x) : cppTrunc x = ⌊x⌋ :=
  if_neg (not_lt.mpr hx)

lemma cppTrunc_nonneg (x : ℝ) (hx : 0 ≤ x) : 0 ≤ cppTrunc x := by
  rw [cppTrunc_of_nonneg x hx]
  exact Int.floor_nonneg.mpr hx

lemma cppRem_eq_emod (a b : ℤ) (ha : 0 ≤ a) (hb : 0 ≤ b) : cppRem a b = a % b := by
  unfold cppRem
  obtain ⟨n, rfl⟩ := Int.eq_ofNat_of_zero_le ha
  obtain ⟨m, rfl⟩ := Int.eq_ofNat_of_zero_le hb
  cases n with
  | zero => simp
  | succ k =>
      have hpos : (0 : ℤ) < ((k + 1 : ℕ) : ℤ) := by positivity
      rw [Int.sign_eq_one_of_pos hpos, one_mul, Int.natAbs_ofNat, Int.natAbs_ofNat]
      push_cast
      ring

lemma maxColorsTwo_eq : (max_colors : ℤ) * 2 = 100 := by
  rw [max_colors_eq]
  norm_num

lemma axisPixel_c (a : ℝ) : pixelC (axisPixel a) = (a, 0) := by
  unfold pixelC axisPixel
  norm_num

lemma axisPixel_kernel (a : ℝ) (ha4 : ¬ normSq (a, 0) < 2 * 2) :
    kernelZI (axisPixel a) = ((a, 0), 1) := by
  have h := mandelLoop_escape_one (a, 0) ha4 999
  rw [kernel_eq_loop, axisPixel_c, max_iterations_eq]
  exact h

lemma axisPixel_outside (a : ℝ) (ha4 : ¬ normSq (a, 0) < 2 * 2) :
    ¬ pixelInside (axisPixel a) := by
  unfold pixelInside finalZ finalI
  rw [axisPixel_kernel a ha4]
  push_neg
  exact ⟨not_lt.mp ha4, by rw [max_iterations_eq]; omega⟩

lemma axisPixel_s (a : ℝ) (ha4 : ¬ normSq (a, 0) < 2 * 2) :
    smoothedS (axisPixel a) =
      1 + (Real.log (Real.log 1000) - Real.log (Real.log (Real.sqrt (a * a)))) / Real.log 2 := by
  unfold smoothedS finalZ finalI
  rw [axisPixel_kernel a ha4, max_iterations_eq]
  norm_num [normSq]

lemma five_s_nonneg : 0 ≤ smoothedS (axisPixel (-5)) := by
  have ha4 : ¬ normSq ((-5 : ℝ), 0) < 2 * 2 := by norm_num [normSq]
  rw [axisPixel_s (-5) ha4]
  have hsq : Real.sqrt ((-5 : ℝ) * -5) = 5 := by
    rw [show ((-5 : ℝ) * -5) = 5 * 5 by norm_num]
    exact Real.sqrt_mul_self (by norm_num)
  rw [hsq]
  have h5p : (0 : ℝ) < Real.log 5 := Real.log_pos (by norm_num)
  have h1000p : (0 : ℝ) < Real.log 1000 := Real.log_pos (by norm_num)
  have h5 : Real.log 5 ≤ Real.log 1000 :=
    (Real.log_le_log_iff (by norm_num) (by norm_num)).mpr (by norm_num)
  have hll : Real.log (Real.log 5) ≤ Real.log (Real.log 1000) :=
    (Real.log_le_log_iff h5p h1000p).mpr h5
  have h2p : (0 : ℝ) < Real.log 2 := Real.log_pos (by norm_num)
  have : 0 ≤ (Real.log (Real.log 1000) - Real.log (Real.log 5)) / Real.log 2 :=
    div_nonneg (by linarith) h2p.le
  linarith

/-! ### Claim C10 -/

/-- C10: for every outside pixel whose smoothed count `s` is non-negative,
the indices `first % (max_colors*2)` and `second % (max_colors*2)` computed
in `WritePixel` lie in `[0, 100)`, so both reads of the 100-entry
`color_ramp` are in bounds. -/
theorem c10_indices_in_bounds (p : PixelIn)
    (hout : ¬ pixelInside p) (hs : 0 ≤ smoothedS p) :
    (0 ≤ cppRem (firstIndex p) ((max_colors : ℤ) * 2) ∧
      cppRem (firstIndex p) ((max_colors : ℤ) * 2) < 100) ∧
    (0 ≤ cppRem (secondIndex p) ((max_colors : ℤ) * 2) ∧
      cppRem (secondIndex p) ((max_colors : ℤ) * 2) < 100) := by
  have hf : 0 ≤ firstIndex p := cppTrunc_nonneg _ hs
  have hsec : 0 ≤ secondIndex p := by
    unfold secondIndex
    omega
  rw [maxColorsTwo_eq, cppRem_eq_emod _ _ hf (by norm_num),
    cppRem_eq_emod _ _ hsec (by norm_num)]
  exact ⟨⟨Int.emod_nonneg _ (by norm_num), Int.emod_lt_of_pos _ (by norm_num)⟩,
    ⟨Int.emod_nonneg _ (by norm_num), Int.emod_lt_of_pos _ (by norm_num)⟩⟩

/-- Witness for C10: the pixel with complex parameter `(-5, 0)` escapes at
`i = 1`, is outside with non-negative smoothed count, and its ramp indices
are in bounds. -/
theorem c10_indices_in_bounds_witness :
    (¬ pixelInside (axisPixel (-5)) ∧ 0 ≤ smoothedS (axisPixel (-5))) ∧
    ((0 ≤ cppRem (firstIndex (axisPixel (-5))) ((max_colors : ℤ) * 2) ∧
        cppRem (firstIndex (axisPixel (-5))) ((max_colors : ℤ) * 2) < 100) ∧
      (0 ≤ cppRem (secondIndex (axisPixel (-5))) ((max_colors : ℤ) * 2) ∧
        cppRem (secondIndex (axisPixel (-5))) ((max_colors : ℤ) * 2) < 100)) :=
  have hout : ¬ pixelInside (axisPixel (-5)) :=
    axisPixel_outside (-5) (by norm_num [normSq])
  ⟨⟨hout, five_s_nonneg⟩, c10_indices_in_bounds (axisPixel (-5)) hout five_s_nonneg⟩

/-! ### Claim C3 -/

lemma big_escape : ¬ normSq ((1000000000 : ℝ), 0) < 2 * 2 := by
  norm_num [normSq]

lemma big_s_eq : smoothedS (axisPixel 1000000000) = 1 - Real.log 3 / Real.log 2 := by
  rw [axisPixel_s 1000000000 big_escape]
  have hsq : Real.sqrt ((1000000000 : ℝ) * 1000000000) = 1000000000 :=
    Real.sqrt_mul_self (by norm_num)
  rw [hsq]
  have hL : Real.log 10 ≠ 0 := (Real.log_pos (by norm_num)).ne'
  rw [show (1000 : ℝ) = 10 ^ (3 : ℕ) by norm_num,
    show (1000000000 : ℝ) = 10 ^ (9 : ℕ) by norm_num,
    Real.log_pow, Real.log_pow]
  push_cast
  rw [Real.log_mul (by norm_num) hL, Real.log_mul (by norm_num) hL,
    show (9 : ℝ) = 3 ^ (2 : ℕ) by norm_num, Real.log_pow]
  push_cast
  ring

lemma big_s_neg : smoothedS (axisPixel 1000000000) < 0 := by
  rw [big_s_eq]
  have h2p : (0 : ℝ) < Real.log 2 := Real.log_pos (by norm_num)
  have h23 : Real.log 2 < Real.log 3 := Real.log_lt_log (by norm_num) (by norm_num)
  have : 1 < Real.log 3 / Real.log 2 := (one_lt_div h2p).mpr h23
  linarith

lemma big_s_gt : (-1 : ℝ) < smoothedS (axisPixel 1000000000) := by
  rw [big_s_eq]
  have h2p : (0 : ℝ) < Real.log 2 := Real.log_pos (by norm_num)
  have h34 : Real.log 3 < Real.log 4 := Real.log_lt_log (by norm_num) (by norm_num)
  have h4 : Real.log 4 = 2 * Real.log 2 := by
    rw [show (4 : ℝ) = 2 ^ (2 : ℕ) by norm_num, Real.log_pow]
    push_cast
    ring
  have : Real.log 3 / Real.log 2 < 2 := by
    rw [div_lt_iff h2p]
    linarith
  linarith

/-- C3 counterexample: at the outside pixel with complex parameter
`(10^9, 0)` the smoothed count is `1 - log 3 / log 2 ∈ (-1, 0)`, so the
code's `first = (int)s` (truncation toward zero, = 0) differs from the
claimed `first = floor(s)` (= -1). -/
theorem c3_floor_counterexample :
    ¬ pixelInside (axisPixel 1000000000) ∧
    firstIndex (axisPixel 1000000000) ≠ ⌊smoothedS (axisPixel 1000000000)⌋ := by
  refine ⟨axisPixel_outside 1000000000 big_escape, ?_⟩
  have hneg := big_s_neg
  have hgt := big_s_gt
  have hceil : firstIndex (axisPixel 1000000000) = 0 := by
    unfold firstIndex cppTrunc
    rw [if_pos hneg]
    have h1 : ⌈smoothedS (axisPixel 1000000000)⌉ ≤ 0 := Int.ceil_le.mpr (by push_cast; linarith)
    have h2 : (-1 : ℤ) < ⌈smoothedS (axisPixel 1000000000)⌉ := Int.lt_ceil.mpr (by push_cast; linarith)
    omega
  have hfloor : ⌊smoothedS (axisPixel 1000000000)⌋ = -1 := by
    rw [Int.floor_eq_iff]
    push_cast
    constructor <;> linarith
  rw [hceil, hfloor]
  omega

/-- C3 (amended): for every outside pixel with non-negative smoothed count
`s`, the program writes exactly the bytes of the claimed formula: with
`first = ⌊s⌋` (which equals the code's truncation toward zero since
`s ≥ 0`), `second = first + 1`, `f = s - first`, color
`ramp[second mod 100]·f + ramp[first mod 100]·(1-f)`, each channel stored
as the byte `⌊255 · channel⌋`. -/
theorem c3_outside_pixel_color (p : PixelIn)
    (hout : ¬ pixelInside p) (hs : 0 ≤ smoothedS p) :
    renderPixel color_ramp p = claimColorBytes (smoothedS p) := by
  have hout' : ¬ (normSq (finalZ p) < 2 * 2 ∨ finalI p = max_iterations) := hout
  have hfirst : firstIndex p = ⌊smoothedS p⌋ := cppTrunc_of_nonneg _ hs
  have hfnn : 0 ≤ ⌊smoothedS p⌋ := Int.floor_nonneg.mpr hs
  have hfr0 : 0 ≤ smoothedS p - (⌊smoothedS p⌋ : ℝ) := sub_nonneg.mpr (Int.floor_le _)
  have hfr1 : smoothedS p - (⌊smoothedS p⌋ : ℝ) ≤ 1 := by
    have := Int.lt_floor_add_one (smoothedS p)
    push_cast at this
    linarith
  have hbyte : ∀ v : ℝ, 0 ≤ v → byteOf v = ⌊v * 255⌋ := fun v hv =>
    cppTrunc_of_nonneg _ (mul_nonneg hv (by norm_num))
  simp only [renderPixel, writePixelColor, claimColorBytes, claimColor, secondIndex,
    fracFactor, hfirst, if_neg hout', maxColorsTwo_eq]
  rw [if_neg (show ¬ (⌊smoothedS p⌋ : ℤ) = -1 by omega)]
  rw [cppRem_eq_emod _ _ (by omega) (by norm_num), cppRem_eq_emod _ _ hfnn (by norm_num)]
  have hA := color_ramp_bounds ((⌊smoothedS p⌋ + 1) % 100).toNat
  have hB := color_ramp_bounds (⌊smoothedS p⌋ % 100).toNat
  simp only [Color.smul, Color.addc]
  refine Prod.ext ?_ (Prod.ext ?_ ?_) <;>
    · apply hbyte
      apply add_nonneg <;> apply mul_nonneg <;> first
        | exact hA.1 | exact hA.2.2.1 | exact hA.2.2.2.2.1
        | exact hB.1 | exact hB.2.2.1 | exact hB.2.2.2.2.1
        | exact hfr0 | linarith

/-- Witness for the amended C3 at the outside pixel with complex parameter
`(-3, 0)`, whose smoothed count is non-negative. -/
theorem c3_outside_pixel_color_witness :
    (¬ pixelInside (axisPixel (-3)) ∧ 0 ≤ smoothedS (axisPixel (-3))) ∧
    renderPixel color_ramp (axisPixel (-3)) = claimColorBytes (smoothedS (axisPixel (-3))) := by
  have ha4 : ¬ normSq ((-3 : ℝ), 0) < 2 * 2 := by norm_num [normSq]
  have hout : ¬ pixelInside (axisPixel (-3)) := axisPixel_outside (-3) ha4
  have hs : 0 ≤ smoothedS (axisPixel (-3)) := by
    rw [axisPixel_s (-3) ha4]
    have hsq : Real.sqrt ((-3 : ℝ) * -3) = 3 := by
      rw [show ((-3 : ℝ) * -3) = 3 * 3 by norm_num]
      exact Real.sqrt_mul_self (by norm_num)
    rw [hsq]
    have h3p : (0 : ℝ) < Real.log 3 := Real.log_pos (by norm_num)
    have h1000p : (0 : ℝ) < Real.log 1000 := Real.log_pos (by norm_num)
    have h3 : Real.log 3 ≤ Real.log 1000 :=
      (Real.log_le_log_iff (by norm_num) (by norm_num)).mpr (by norm_num)
    have hll : Real.log (Real.log 3) ≤ Real.log (Real.log 1000) :=
      (Real.log_le_log_iff h3p h1000p).mpr h3
    have h2p : (0 : ℝ) < Real.log 2 := Real.log_pos (by norm_num)
    have : 0 ≤ (Real.log (Real.log 1000) - Real.log (Real.log 3)) / Real.log 2 :=
      div_nonneg (by linarith) h2p.le
    linarith
  exact ⟨⟨hout, hs⟩, c3_outside_pixel_color (axisPixel (-3)) hout hs⟩

/-! ### Claim C2: the real orbit and an input escaping exactly at step 1000 -/

lemma G_continuous (n : ℕ) : Continuous fun c : ℝ => G n c := by
  induction n with
  | zero => simpa [G] using continuous_const
  | succ n ih =>
      simp only [G]
      exact (ih.mul ih).add continuous_id

lemma G_nonneg (n : ℕ) (c : ℝ) (hc : 0 ≤ c) : 0 ≤ G n c := by
  induction n with
  | zero => simp [G]
  | succ n ih =>
      simp only [G]
      nlinarith [mul_self_nonneg (G n c)]

lemma G_succ_lt (n : ℕ) (c : ℝ) (hc : 1 / 4 < c) : G n c < G (n + 1) c := by
  simp only [G]
  nlinarith [sq_nonneg (G n c - 1 / 2)]

lemma G_strictMono (c : ℝ) (hc : 1 / 4 < c) : StrictMono fun n => G n c :=
  strictMono_nat_of_lt_succ fun n => G_succ_lt n c hc

lemma G_slow :
    ∀ n, n ≤ 1000 →
      G n (1 / 4 + (1 / 2000) ^ 2) ≤ 1 / 2 + 2 * (n : ℝ) * (1 / 2000) ^ 2 := by
  intro n
  induction n with
  | zero =>
      intro _
      norm_num [G]
  | succ n ih =>
      intro hn
      have ihn := ih (by omega)
      have hnn : (0 : ℝ) ≤ G n (1 / 4 + (1 / 2000) ^ 2) := G_nonneg n _ (by norm_num)
      have hcast : (n : ℝ) ≤ 999 := by exact_mod_cast (by omega : n ≤ 999)
      have hcast0 : (0 : ℝ) ≤ (n : ℝ) := Nat.cast_nonneg n
      simp only [G]
      push_cast
      set g := G n (1 / 4 + (1 / 2000) ^ 2) with hg
      rcases le_or_lt g (1 / 2) with hle | hlt
      · nlinarith
      · have hwlt : g - 1 / 2 ≤ 2 * (n : ℝ) * (1 / 2000) ^ 2 := by linarith
        have hwle : g - 1 / 2 ≤ 1 / 2000 := by nlinarith
        have hsq : (g - 1 / 2) * (g - 1 / 2) ≤ (1 / 2000) ^ 2 := by nlinarith
        nlinarith

lemma G_l_lt_two : G 1000 (1 / 4 + (1 / 2000) ^ 2) < 2 := by
  have h := G_slow 1000 le_rfl
  norm_num at h ⊢
  linarith

lemma G_two_ge : ∀ n, 1 ≤ n → (2 : ℝ) ≤ G n 2 := by
  intro n
  induction n with
  | zero => intro h; exact absurd h (by omega)
  | succ n ih =>
      intro _
      rcases Nat.eq_zero_or_pos n with h0 | hpos
      · subst h0
        norm_num [G]
      · have := ih hpos
        simp only [G]
        nlinarith

/-- There is a real kernel input `c = (a, 0)` whose orbit stays strictly
inside the escape bound for 999 steps and reaches exactly 2 at step 1000. -/
lemma exists_escape_at_1000 : ∃ a : ℝ, 1 / 4 < a ∧ G 1000 a = 2 := by
  have hle : (1 / 4 + (1 / 2000) ^ 2 : ℝ) ≤ 2 := by norm_num
  have hcont : ContinuousOn (fun c : ℝ => G 1000 c)
      (Set.Icc (1 / 4 + (1 / 2000) ^ 2) 2) := (G_continuous 1000).continuousOn
  have hmem : (2 : ℝ) ∈ Set.Icc (G 1000 (1 / 4 + (1 / 2000) ^ 2)) (G 1000 2) :=
    ⟨G_l_lt_two.le, G_two_ge 1000 (by omega)⟩
  obtain ⟨a, haI, hGa⟩ := intermediate_value_Icc hle hcont hmem
  exact ⟨a, lt_of_lt_of_le (by norm_num) haI.1, hGa⟩

lemma phantom_orbit (a : ℝ) (ha : 1 / 4 < a) (hG : G 1000 a = 2) :
    ∀ fuel i, i + fuel = 1000 →
      mandelLoop (a, 0) fuel (G i a, 0) i = ((G 1000 a, 0), 1000) := by
  have hmono := G_strictMono a ha
  have hlt : ∀ k, k < 1000 → G k a < 2 := by
    intro k hk
    have h := hmono hk
    simpa [hG] using h
  have hnn : ∀ k, 0 ≤ G k a := fun k => G_nonneg k a (by linarith)
  intro fuel
  induction fuel with
  | zero =>
      intro i h
      rw [show i = 1000 by omega]
      simp [mandelLoop]
  | succ n ih =>
      intro i h
      have hi : i < 1000 := by omega
      simp only [mandelLoop]
      rw [if_pos ⟨by rw [max_iterations_eq]; omega, by
          show normSq (G i a, 0) < 2 * 2
          simp only [normSq]
          nlinarith [hlt i hi, hnn i]⟩]
      have hz : zstep (G i a, 0) (a, 0) = (G (i + 1) a, 0) := by
        simp [zstep, G]
      rw [hz]
      exact ih (i + 1) (by omega)

lemma inside_black (p : PixelIn) (h : pixelInside p) :
    renderPixel color_ramp p = (0, 0, 0) := by
  have h' : normSq (finalZ p) < 2 * 2 ∨ finalI p = max_iterations := h
  simp only [renderPixel, if_pos h', writePixelColor, if_pos rfl]
  norm_num [byteOf, cppTrunc]

/-- C2 counterexample: the claim "a pixel is classified inside and receives
RGB (0,0,0) exactly when |z|² < 4 at loop termination" is false: there is a
pixel whose orbit escapes exactly at iteration 1000, which the code
classifies inside (via `i == max_iterations`) and paints black although
`|z|² = 4` at termination. -/
theorem c2_exactly_when_counterexample :
    ¬ ∀ p : PixelIn,
        (pixelInside p ∧ renderPixel color_ramp p = (0, 0, 0)) ↔
          normSq (finalZ p) < 2 * 2 := by
  intro hclaim
  obtain ⟨a, ha, hG⟩ := exists_escape_at_1000
  have horbit := phantom_orbit a ha hG 1000 0 (by omega)
  have hker : kernelZI (axisPixel a) = ((G 1000 a, 0), 1000) := by
    rw [kernel_eq_loop, axisPixel_c, max_iterations_eq,
      show ((0 : ℝ), (0 : ℝ)) = (G 0 a, 0) by simp [G]]
    exact horbit
  have hfz : finalZ (axisPixel a) = (G 1000 a, 0) := by rw [finalZ, hker]
  have hfi : finalI (axisPixel a) = 1000 := by rw [finalI, hker]
  have hin : pixelInside (axisPixel a) := Or.inr (by rw [hfi, max_iterations_eq])
  have hns : ¬ normSq (finalZ (axisPixel a)) < 2 * 2 := by
    rw [hfz]
    simp only [normSq, hG]
    norm_num
  exact hns ((hclaim (axisPixel a)).mp ⟨hin, inside_black _ hin⟩)

lemma mandelLoop_exit_bounded (c : ℝ × ℝ) :
    ∀ fuel z i, i + fuel = max_iterations →
      normSq (mandelLoop c fuel z i).1 < 2 * 2 →
      (mandelLoop c fuel z i).2 = max_iterations := by
  intro fuel
  induction fuel with
  | zero =>
      intro z i h _
      show i = max_iterations
      omega
  | succ n ih =>
      intro z i h hlt
      simp only [mandelLoop] at hlt ⊢
      by_cases hg : i < max_iterations ∧ normSq z < 2 * 2
      · rw [if_pos hg] at hlt ⊢
        exact ih _ _ (by omega) hlt
      · rw [if_neg hg] at hlt ⊢
        exact absurd ⟨by omega, hlt⟩ hg

/-- C2 (amended): a pixel with `|z|² < 4` at loop termination did reach
`i = max_iterations` and is painted black, and a pixel with
`i = max_iterations` is painted black even when `|z|² ≥ 4` (the orbit that
escapes exactly at the last iteration): the code's inside test is the
disjunction `|z|² < 4 || i == max_iterations`. -/
theorem c2_inside_black (p : PixelIn) :
    (normSq (finalZ p) < 2 * 2 →
      finalI p = max_iterations ∧ renderPixel color_ramp p = (0, 0, 0)) ∧
    (finalI p = max_iterations → renderPixel color_ramp p = (0, 0, 0)) := by
  constructor
  · intro h4
    refine ⟨?_, inside_black p (Or.inl h4)⟩
    have := mandelLoop_exit_bounded (pixelC p) max_iterations ((0 : ℝ), (0 : ℝ)) 0 (by omega)
    unfold finalI
    rw [kernel_eq_loop]
    apply this
    unfold finalZ at h4
    rw [kernel_eq_loop] at h4
    exact h4
  · intro hi
    exact inside_black p (Or.inr hi)

lemma zeroPixel_kernel : kernelZI zeroPixel = (((0 : ℝ), (0 : ℝ)), max_iterations) := by
  have hc : pixelC zeroPixel = ((0 : ℝ), (0 : ℝ)) := by
    unfold pixelC zeroPixel
    norm_num
  rw [kernel_eq_loop, hc]
  exact mandelLoop_zero_orbit max_iterations 0 (by omega)

/-- Witness for the amended C2 at the pixel with complex parameter `(0, 0)`,
whose orbit never escapes. -/
theorem c2_inside_black_witness :
    normSq (finalZ zeroPixel) < 2 * 2 ∧
    (finalI zeroPixel = max_iterations ∧ renderPixel color_ramp zeroPixel = (0, 0, 0)) := by
  have h4 : normSq (finalZ zeroPixel) < 2 * 2 := by
    unfold finalZ
    rw [zeroPixel_kernel]
    norm_num [normSq]
  exact ⟨h4, (c2_inside_black zeroPixel).1 h4⟩

/-! ### Claim C6: the raster content is independent of the row partition -/

lemma workerPixel_eq (ramp : ℕ → Color) (w h : ℕ) (job : Job) (x y : ℕ) :
    workerPixel ramp w h job x y = pixelBytesAt ramp w h job.scale job.offset x y := rfl

lemma pixAddr_inj {w x x' y y' k k' : ℕ} (hw : 0 < w) (hx : x < w) (hx' : x' < w)
    (hk : k < 3) (hk' : k' < 3)
    (heq : (y * w + x) * 3 + k = (y' * w + x') * 3 + k') :
    y = y' ∧ x = x' ∧ k = k' := by
  have hAB : y * w + x = y' * w + x' ∧ k = k' := by constructor <;> omega
  obtain ⟨hAB1, hkk⟩ := hAB
  have hxx : x = x' := by
    have e0 : x + y * w = x' + y' * w := by omega
    have e1 := congrArg (fun t => t % w) e0
    simp only [Nat.add_mul_mod_self_right] at e1
    rwa [Nat.mod_eq_of_lt hx, Nat.mod_eq_of_lt hx'] at e1
  subst hxx
  have hyy : y = y' := by
    have hmul : y * w = y' * w := by omega
    exact Nat.eq_of_mul_eq_mul_right hw hmul
  exact ⟨hyy, rfl, hkk⟩

lemma writeBytesAt_read (w x y x' y' k' : ℕ) (hw : 0 < w) (hx : x < w) (hx' : x' < w)
    (hk' : k' < 3) (bs : ℤ × ℤ × ℤ) (r : Raster) :
    writeBytesAt w x y bs r ((y' * w + x') * 3 + k') =
      if y' = y ∧ x' = x then byteSel k' bs
      else r ((y' * w + x') * 3 + k') := by
  unfold writeBytesAt
  by_cases hyx : y' = y ∧ x' = x
  · obtain ⟨hy2, hx2⟩ := hyx
    subst hy2
    subst hx2
    rw [if_pos ⟨rfl, rfl⟩]
    rcases (by omega : k' = 0 ∨ k' = 1 ∨ k' = 2) with hk0 | hk1 | hk2
    · subst hk0
      rw [Function.update_noteq (by omega), Function.update_noteq (by omega)]
      simp only [Nat.add_zero, Function.update_same]
      simp [byteSel]
    · subst hk1
      rw [Function.update_noteq (by omega), Function.update_same]
      simp [byteSel]
    · subst hk2
      rw [Function.update_same]
      simp [byteSel]
  · rw [if_neg hyx]
    have hne2 : (y' * w + x') * 3 + k' ≠ (y * w + x) * 3 + 2 := by
      intro he
      exact hyx ⟨(pixAddr_inj hw hx' hx hk' (by omega) he).1,
        (pixAddr_inj hw hx' hx hk' (by omega) he).2.1⟩
    have hne1 : (y' * w + x') * 3 + k' ≠ (y * w + x) * 3 + 1 := by
      intro he
      exact hyx ⟨(pixAddr_inj hw hx' hx hk' (by omega) he).1,
        (pixAddr_inj hw hx' hx hk' (by omega) he).2.1⟩
    have hne0 : (y' * w + x') * 3 + k' ≠ (y * w + x) * 3 := by
      intro he
      have he' : (y' * w + x') * 3 + k' = (y * w + x) * 3 + 0 := by omega
      exact hyx ⟨(pixAddr_inj hw hx' hx hk' (by omega) he').1,
        (pixAddr_inj hw hx' hx hk' (by omega) he').2.1⟩
    rw [Function.update_noteq hne2, Function.update_noteq hne1, Function.update_noteq hne0]

lemma foldl_row_read (ramp : ℕ → Color) (w h : ℕ) (job : Job) (y : ℕ) :
    ∀ xs : List ℕ, (∀ z ∈ xs, z < w) →
      ∀ (r : Raster) (x' y' k' : ℕ), 0 < w → x' < w → k' < 3 →
        (xs.foldl (fun acc x => writeBytesAt w x y (workerPixel ramp w h job x y) acc) r)
            ((y' * w + x') * 3 + k') =
          if y' = y ∧ x' ∈ xs then byteSel k' (workerPixel ramp w h job x' y)
          else r ((y' * w + x') * 3 + k') := by
  intro xs
  induction xs with
  | nil =>
      intro _ r x' y' k' _ _ _
      simp
  | cons x xs ih =>
      intro hmem r x' y' k' hw hx' hk'
      rw [List.foldl_cons,
        ih (fun z hz => hmem z (List.mem_cons_of_mem _ hz)) _ x' y' k' hw hx' hk']
      by_cases hcase : y' = y ∧ x' ∈ xs
      · rw [if_pos hcase, if_pos ⟨hcase.1, List.mem_cons_of_mem _ hcase.2⟩]
      · rw [if_neg hcase,
          writeBytesAt_read w x y x' y' k' hw (hmem x (List.mem_cons_self _ _)) hx' hk']
        by_cases hcase2 : y' = y ∧ x' = x
        · rw [if_pos hcase2, if_pos ⟨hcase2.1, by rw [hcase2.2]; exact List.mem_cons_self _ _⟩,
            hcase2.2]
        · rw [if_neg hcase2, if_neg ?_]
          rintro ⟨hy2, hmem'⟩
          rcases List.mem_cons.mp hmem' with he | hm
          · exact hcase2 ⟨hy2, he⟩
          · exact hcase ⟨hy2, hm⟩

lemma renderRow_read (ramp : ℕ → Color) (w h : ℕ) (job : Job) (y : ℕ)
    (r : Raster) (x' y' k' : ℕ) (hw : 0 < w) (hx' : x' < w) (hk' : k' < 3) :
    renderRow ramp w h job y r ((y' * w + x') * 3 + k') =
      if y' = y then byteSel k' (workerPixel ramp w h job x' y)
      else r ((y' * w + x') * 3 + k') := by
  unfold renderRow
  rw [foldl_row_read ramp w h job y (List.range w) (fun z hz => List.mem_range.mp hz)
    r x' y' k' hw hx' hk']
  by_cases hy2 : y' = y
  · rw [if_pos ⟨hy2, List.mem_range.mpr hx'⟩, if_pos hy2]
  · rw [if_neg (by rintro ⟨h1, -⟩; exact hy2 h1), if_neg hy2]

lemma foldl_rows_read (ramp : ℕ → Color) (w h : ℕ) (job : Job) :
    ∀ dys : List ℕ,
      ∀ (r : Raster) (x' y' k' : ℕ), 0 < w → x' < w → k' < 3 →
        (dys.foldl (fun acc dy => renderRow ramp w h job (job.y_start + dy) acc) r)
            ((y' * w + x') * 3 + k') =
          if ∃ dy ∈ dys, y' = job.y_start + dy
          then byteSel k' (workerPixel ramp w h job x' y')
          else r ((y' * w + x') * 3 + k') := by
  intro dys
  induction dys with
  | nil =>
      intro r x' y' k' _ _ _
      simp
  | cons dy dys ih =>
      intro r x' y' k' hw hx' hk'
      rw [List.foldl_cons, ih _ x' y' k' hw hx' hk']
      by_cases h1 : ∃ d ∈ dys, y' = job.y_start + d
      · obtain ⟨d, hd, hyd⟩ := h1
        rw [if_pos ⟨d, hd, hyd⟩, if_pos ⟨d, List.mem_cons_of_mem _ hd, hyd⟩]
      · rw [if_neg h1, renderRow_read ramp w h job (job.y_start + dy) r x' y' k' hw hx' hk']
        by_cases h2 : y' = job.y_start + dy
        · rw [if_pos h2, if_pos ⟨dy, List.mem_cons_self _ _, h2⟩, h2]
        · rw [if_neg h2, if_neg ?_]
          rintro ⟨d, hd, hyd⟩
          rcases List.mem_cons.mp hd with he | hm
          · exact h2 (by rw [hyd, he])
          · exact h1 ⟨d, hm, hyd⟩

lemma applyJob_read (ramp : ℕ → Color) (w h : ℕ) (job : Job) (r : Raster)
    (x' y' k' : ℕ) (hw : 0 < w) (hx' : x' < w) (hk' : k' < 3) :
    applyJob ramp w h r job ((y' * w + x') * 3 + k') =
      if y' ∈ jobRows job then byteSel k' (workerPixel ramp w h job x' y')
      else r ((y' * w + x') * 3 + k') := by
  unfold applyJob
  rw [foldl_rows_read ramp w h job (List.range job.y_count) r x' y' k' hw hx' hk']
  have hiff : (∃ dy ∈ List.range job.y_count, y' = job.y_start + dy) ↔ y' ∈ jobRows job := by
    simp only [List.mem_range, jobRows, Finset.mem_Ico]
    constructor
    · rintro ⟨d, hd, rfl⟩
      omega
    · rintro ⟨hlo, hhi⟩
      exact ⟨y' - job.y_start, by omega, by omega⟩
  rw [if_congr hiff rfl rfl]

lemma runJobs_read (ramp : ℕ → Color) (w h : ℕ) (sc : ℝ) (off : ℝ × ℝ) :
    ∀ jobs : List Job, (∀ j ∈ jobs, j.scale = sc ∧ j.offset = off) →
      ∀ (r : Raster) (x' y' k' : ℕ), 0 < w → x' < w → k' < 3 →
        runJobs ramp w h r jobs ((y' * w + x') * 3 + k') =
          if ∃ j ∈ jobs, y' ∈ jobRows j
          then byteSel k' (pixelBytesAt ramp w h sc off x' y')
          else r ((y' * w + x') * 3 + k') := by
  intro jobs
  induction jobs with
  | nil =>
      intro _ r x' y' k' _ _ _
      simp [runJobs]
  | cons j js ih =>
      intro hvp r x' y' k' hw hx' hk'
      have hj := hvp j (List.mem_cons_self _ _)
      simp only [runJobs, List.foldl_cons]
      have ih' := ih (fun jj hjj => hvp jj (List.mem_cons_of_mem _ hjj))
        (applyJob ramp w h r j) x' y' k' hw hx' hk'
      simp only [runJobs] at ih'
      rw [ih']
      by_cases h1 : ∃ jj ∈ js, y' ∈ jobRows jj
      · obtain ⟨jj, hjj, hy2⟩ := h1
        rw [if_pos ⟨jj, hjj, hy2⟩, if_pos ⟨jj, List.mem_cons_of_mem _ hjj, hy2⟩]
      · rw [if_neg h1, applyJob_read ramp w h j r x' y' k' hw hx' hk']
        by_cases h2 : y' ∈ jobRows j
        · rw [if_pos h2, if_pos ⟨j, List.mem_cons_self _ _, h2⟩, workerPixel_eq,
            hj.1, hj.2]
        · rw [if_neg h2, if_neg ?_]
          rintro ⟨jj, hjj, hy2⟩
          rcases List.mem_cons.mp hjj with he | hm
          · exact h2 (he ▸ hy2)
          · exact h1 ⟨jj, hm, hy2⟩

/-- C6: for fixed raster dimensions, viewport and ramp, every raster byte
written by a list of band jobs equals the pure per-pixel function of
`(x, y, W, H, scale, offset, ramp)` alone, for any list of jobs covering
the rows; hence any two partitions of the rows produce byte-identical
rasters. -/
theorem c6_partition_independent (ramp : ℕ → Color) (w h : ℕ) (sc : ℝ) (off : ℝ × ℝ)
    (r0 : Raster) (jobs1 jobs2 : List Job)
    (hw : 0 < w)
    (hvp1 : ∀ j ∈ jobs1, j.scale = sc ∧ j.offset = off)
    (hvp2 : ∀ j ∈ jobs2, j.scale = sc ∧ j.offset = off)
    (hcov1 : ∀ y, y < h → ∃ j ∈ jobs1, y ∈ jobRows j)
    (hcov2 : ∀ y, y < h → ∃ j ∈ jobs2, y ∈ jobRows j) :
    ∀ x y k, x < w → y < h → k < 3 →
      runJobs ramp w h r0 jobs1 ((y * w + x) * 3 + k) =
        byteSel k (pixelBytesAt ramp w h sc off x y) ∧
      runJobs ramp w h r0 jobs2 ((y * w + x) * 3 + k) =
        runJobs ramp w h r0 jobs1 ((y * w + x) * 3 + k) := by
  intro x y k hx hy hk
  have h1 := runJobs_read ramp w h sc off jobs1 hvp1 r0 x y k hw hx hk
  have h2 := runJobs_read ramp w h sc off jobs2 hvp2 r0 x y k hw hx hk
  rw [if_pos (hcov1 y hy)] at h1
  rw [if_pos (hcov2 y hy)] at h2
  exact ⟨h1, by rw [h1, h2]⟩

/-- Witness for C6: a 2×2 raster rendered as one band of two rows versus
two bands of one row each gives the same byte at pixel `(1,1)`, channel 2,
equal to the pure pixel function. -/
theorem c6_partition_independent_witness :
    runJobs color_ramp 2 2 (fun _ => 0) [⟨0, 2, 0, (0, 0)⟩] ((1 * 2 + 1) * 3 + 2) =
      byteSel 2 (pixelBytesAt color_ramp 2 2 0 (0, 0) 1 1) ∧
    runJobs color_ramp 2 2 (fun _ => 0) [⟨0, 1, 0, (0, 0)⟩, ⟨1, 1, 0, (0, 0)⟩]
        ((1 * 2 + 1) * 3 + 2) =
      runJobs color_ramp 2 2 (fun _ => 0) [⟨0, 2, 0, (0, 0)⟩] ((1 * 2 + 1) * 3 + 2) := by
  have hvp1 : ∀ j ∈ [(⟨0, 2, 0, (0, 0)⟩ : Job)], j.scale = 0 ∧ j.offset = (0, 0) := by
    intro j hj
    rw [List.mem_singleton] at hj
    subst hj
    exact ⟨rfl, rfl⟩
  have hvp2 : ∀ j ∈ [(⟨0, 1, 0, (0, 0)⟩ : Job), ⟨1, 1, 0, (0, 0)⟩],
      j.scale = 0 ∧ j.offset = (0, 0) := by
    intro j hj
    rcases List.mem_cons.mp hj with he | hm
    · subst he
      exact ⟨rfl, rfl⟩
    · rw [List.mem_singleton] at hm
      subst hm
      exact ⟨rfl, rfl⟩
  have hcov1 : ∀ y, y < 2 → ∃ j ∈ [(⟨0, 2, 0, (0, 0)⟩ : Job)], y ∈ jobRows j := by
    intro y hy
    exact ⟨⟨0, 2, 0, (0, 0)⟩, List.mem_singleton_self _, by
      simp only [jobRows, Finset.mem_Ico]
      omega⟩
  have hcov2 : ∀ y, y < 2 →
      ∃ j ∈ [(⟨0, 1, 0, (0, 0)⟩ : Job), ⟨1, 1, 0, (0, 0)⟩], y ∈ jobRows j := by
    intro y hy
    rcases (by omega : y = 0 ∨ y = 1) with h0 | h1
    · subst h0
      exact ⟨⟨0, 1, 0, (0, 0)⟩, List.mem_cons_self _ _, by
        simp only [jobRows, Finset.mem_Ico]
        omega⟩
    · subst h1
      exact ⟨⟨1, 1, 0, (0, 0)⟩, List.mem_cons_of_mem _ (List.mem_singleton_self _), by
        simp only [jobRows, Finset.mem_Ico]
        omega⟩
  exact c6_partition_independent color_ramp 2 2 0 (0, 0) (fun _ => 0)
    [⟨0, 2, 0, (0, 0)⟩] [⟨0, 1, 0, (0, 0)⟩, ⟨1, 1, 0, (0, 0)⟩]
    (by omega) hvp1 hvp2 hcov1 hcov2 1 1 2 (by omega) (by omega) (by omega)

end Mandelbrot

end
